import Mathlib

/-!
Verification of `g.extension.github.py` (mundialis/g.extension.github).

The script fetches one GRASS addon's source tree from the GitHub
contents-listing API into a temporary directory and hands it to the
external installer `g.extension`.

Shallow embedding conventions:
* A filesystem or URL path is modelled as its list of components
  (the result of splitting the slash-separated string on "/");
  `os.path.join(a, *comps)` is `a ++ comps`, `os.path.dirname` is
  `List.dropLast`, `os.path.basename` is the last component.
* File contents are byte lists (`List Nat`).
* The local filesystem is an explicit state `FS` holding the written
  files (association list, most recent write first) and the set of
  created directories.
* The network is an abstract `Remote`: the contents-listing endpoint
  (`GET {API_URL}/{path}?ref={reference}`, returning a JSON array of
  entries or failing), and the raw-content endpoint
  (`GET {RAW_URL}/{path}`, returning `some` body on HTTP 200 and
  `none` on any other status).
* `download_git`'s unbounded recursion is made total with an explicit
  `fuel` argument; all theorems about remotes backed by a finite git
  tree supply enough fuel for the fuel bound never to be hit.
-/

set_option autoImplicit false

abbrev FPath := List String

abbrev Bytes := List Nat

/-- Test `beginsWith d p`: whether the path `p` equals `d` or lies below the
directory `d` (i.e. `d` is an initial run of `p`'s components). -/
def beginsWith : FPath → FPath → Bool
  | [], _ => true
  | _ :: _, [] => false
  | a :: as, b :: bs => a == b && beginsWith as bs

/-- All ancestor paths of a path, including `[]` (the root) and the path
itself; used to model `os.makedirs` creating missing intermediate
directories. -/
def ancestors : FPath → List FPath
  | [] => [[]]
  | a :: p => [] :: (ancestors p).map (a :: ·)

/-- The local filesystem state: written files (most recent write first,
lookup returns the latest) and the created directories. -/
structure FS where
  files : List (FPath × Bytes)
  dirs : List FPath
deriving Repr, DecidableEq

def emptyFS : FS := ⟨[], []⟩

/-- Reading a file returns the most recently written content at that path. -/
def FS.readFile (fs : FS) (p : FPath) : Option Bytes :=
  List.lookup p fs.files

/-- Models `open(path, 'wb')` followed by a full write: the new content shadows any
file previously present at `path`. -/
def FS.writeFile (fs : FS) (p : FPath) (c : Bytes) : FS :=
  { fs with files := (p, c) :: fs.files }

/-- Models `os.path.exists`: true for an existing directory or an existing file. -/
def FS.pathExists (fs : FS) (p : FPath) : Bool :=
  fs.dirs.contains p || fs.files.any (fun e => e.1 == p)

/-- Models `os.makedirs`: creates the directory and all missing ancestors. -/
def FS.makedirs (fs : FS) (p : FPath) : FS :=
  { fs with dirs := ancestors p ++ fs.dirs }

/-- Models `os.path.isdir`. -/
def FS.isdir (fs : FS) (p : FPath) : Bool :=
  fs.dirs.contains p

/-- Models `shutil.rmtree`: removes the directory and everything below it. -/
def FS.rmtree (fs : FS) (d : FPath) : FS :=
  ⟨fs.files.filter (fun e => !(beginsWith d e.1)),
   fs.dirs.filter (fun q => !(beginsWith d q))⟩

/-- An error raised while fetching: a non-2xx HTTP response from the
listing endpoint (`urllib.request.urlopen` raises `HTTPError`), a body
that is not well-formed JSON of the expected shape (`json.loads` /
iteration raises), or exhaustion of the artificial recursion fuel. -/
inductive DlErr where
  | http (code : Nat)
  | badJson
  | fuel
deriving Repr, DecidableEq

/-- One JSON object of the contents-listing response.  `path` is the full
repo-relative path (components of `element["path"].split("/")`), and
`download_url` is the raw-content URL's path components (the part after
the raw host), or `none` when the entry is a directory. -/
structure ListingEntry where
  name : String
  path : FPath
  download_url : Option FPath
deriving Repr, DecidableEq

/-- The remote service: `api p ref` is the contents listing of repo path
`p` at reference `ref`; `raw p` is the raw-content response body for URL
path `p` (`some body` iff the HTTP status is 200). -/
structure Remote where
  api : FPath → String → Except DlErr (List ListingEntry)
  raw : FPath → Option Bytes

/-- Models `os.path.basename` of a URL, on the component encoding: the last
component. -/
def basename (p : FPath) : String :=
  p.getLastD ""

/-- Lines 143-153: `urlretrieve_with_auth(url, path)`.  Performs the raw
GET; on status code 200 writes the body to `path`, on any other status
silently does nothing (no exception, no write).  The HTTP transport is
abstracted by `remote.raw`; session authentication does not change the
filesystem effect and is modelled separately by
`urlretrieve_with_auth_session`. -/
def urlretrieve_with_auth (remote : Remote) (url : FPath) (path : FPath) (fs : FS) : FS :=
  match remote.raw url with
  | some content => fs.writeFile path content
  | none => fs

/-- Lines 166-167: `if not os.path.exists(os.path.dirname(path)):
os.makedirs(os.path.dirname(path))`. -/
def mkParent (fs : FS) (path : FPath) : FS :=
  if fs.pathExists path.dropLast then fs else fs.makedirs path.dropLast

mutual

/-- Lines 156-179: `download_git(gitapi_url, git_url, reference, tmp_dir,
lstrip=2)`.  Requests the listing of `gitapi_path` at `reference` and
processes each element in order (`dl_loop`).  Returns the filesystem, the
list of listing requests `(path, ref)` issued (in order), and the first
exception raised, if any (`none` on success).  Exceptions propagate to the
caller unchanged. -/
def download_git (remote : Remote) (reference : String) (fuel : Nat)
    (gitapi_path git_path tmp_dir : FPath) (fs : FS) (lstrip : Nat) :
    FS × List (FPath × String) × Option DlErr :=
  match fuel with
  | 0 => (fs, [], some .fuel)
  | fuel' + 1 =>
    match remote.api gitapi_path reference with
    | .error e => (fs, [(gitapi_path, reference)], some e)
    | .ok content =>
      let r := dl_loop remote reference fuel' gitapi_path git_path tmp_dir lstrip content fs
      (r.1, (gitapi_path, reference) :: r.2.1, r.2.2)
termination_by (fuel, 0)

/-- The body of `download_git`'s `for element in content` loop (lines
164-179).  For each element: compute the local path by dropping the first
`lstrip` components of the element's repo path and joining the rest under
`tmp_dir`; create the parent directory if missing; if `download_url` is
non-null download the raw file, else recurse into the element's own path
(the recursive call in the source relies on the default `lstrip=2`). -/
def dl_loop (remote : Remote) (reference : String) (fuel : Nat)
    (gitapi_path git_path tmp_dir : FPath) (lstrip : Nat)
    (content : List ListingEntry) (fs : FS) :
    FS × List (FPath × String) × Option DlErr :=
  match content with
  | [] => (fs, [], none)
  | element :: rest =>
    let path := tmp_dir ++ element.path.drop lstrip
    let fs1 := mkParent fs path
    match element.download_url with
    | some durl =>
      let file := basename durl
      let url := git_path ++ [file]
      let fs2 := urlretrieve_with_auth remote url path fs1
      dl_loop remote reference fuel gitapi_path git_path tmp_dir lstrip rest fs2
    | none =>
      let r := download_git remote reference fuel
        (gitapi_path ++ [element.name]) (git_path ++ [element.name]) tmp_dir fs1 2
      match r.2.2 with
      | some e => (r.1, r.2.1, some e)
      | none =>
        let r2 := dl_loop remote reference fuel gitapi_path git_path tmp_dir lstrip rest r.1
        (r2.1, r.2.1 ++ r2.2.1, r2.2.2)
termination_by (fuel, content.length + 1)

end

/-- The segment of a string before its first "." (the whole string when
it has no "."): `module_name.split(".", 1)[0]`. -/
def segmentBeforeDot (s : String) : String :=
  ⟨s.data.takeWhile (fun c => c != '.')⟩

/-- Lines 115-132: `get_module_class(module_name)`.  Splits off the part
before the first "." and looks it up in the static two-letter-class table,
returning the segment itself when it is not a key.  Total on all strings
by construction. -/
def get_module_class (module_name : String) : String :=
  let class_letters := segmentBeforeDot module_name
  let name : List (String × String) :=
    [("d", "display"), ("db", "db"), ("g", "general"), ("i", "imagery"),
     ("m", "misc"), ("ps", "postscript"), ("p", "paint"), ("r", "raster"),
     ("r3", "raster3d"), ("s", "sites"), ("t", "temporal"), ("v", "vector"),
     ("wx", "gui/wxpython")]
  (List.lookup class_letters name).getD class_letters

/-- The parsed CLI options (all three are required/defaulted by the
parser). -/
structure Options where
  extension : String
  operation : String
  reference : String

/-- The two CLI flags. -/
structure Flags where
  f : Bool
  s : Bool

/-- One invocation of the external installer `g.extension`
(`grass.run_command`): the extension name, the optional local source path
passed as `url=`, the operation, and the flags string. -/
structure InstallerCall where
  extension : String
  url : Option FPath
  operation : String
  flags : String
deriving Repr, DecidableEq

/-- The observable outcome of one run of `main`: the filesystem, the
installer invocations made, the global `rm_folders` list, the
`(gitapi path, reference)` pair `download_git` was invoked with (if it
was), the `grass.fatal` message (if any — `grass.fatal` terminates the
process before anything later in `main` runs), and the `grass.warning`
message of the unreachable fall-through branch. -/
structure MainOut where
  fs : FS
  calls : List InstallerCall
  rm_folders : List FPath
  fetch_request : Option (FPath × String)
  fatal : Option String
  warning : Option String
deriving Repr, DecidableEq

/-- The text interpolated for the caught exception `e` in the fatal
message (`f"{e}"`). -/
def errText : DlErr → String
  | .http code => "HTTP Error " ++ toString code
  | .badJson => "JSON decode error"
  | .fuel => "maximum recursion depth exceeded"

/-- Lines 274-281: the fatal message, naming the searched repo path, the
reference, and the propagated error. -/
def fatalText (extension_folder reference : String) (e : DlErr) : String :=
  "Could not find extension in repository.\nSearching in repo path "
    ++ extension_folder ++ "\nfor reference " ++ reference ++ ".\n" ++ errText e

/-- Lines 182-296: `main()`.  `tmp_candidate` is the fresh directory name
`grass.tempdir()` would return; `fuel` bounds the fetch recursion depth. -/
def Script.main (remote : Remote) (fuel : Nat) (options : Options) (flags : Flags)
    (tmp_candidate : FPath) (fs : FS) : MainOut :=
  let extension := options.extension
  let operation := options.operation
  let reference := options.reference
  let gextension_flags := (if flags.f then "f" else "") ++ (if flags.s then "s" else "")
  if operation = "remove" then
    { fs := fs, calls := [⟨extension, none, operation, gextension_flags⟩],
      rm_folders := [], fetch_request := none, fatal := none, warning := none }
  else if operation = "add" ∧ reference = "main" then
    { fs := fs, calls := [⟨extension, none, operation, gextension_flags⟩],
      rm_folders := [], fetch_request := none, fatal := none, warning := none }
  else if operation = "add" ∧ reference ≠ "main" then
    let ext_type := get_module_class extension
    let extension_folder := "src/" ++ ext_type ++ "/" ++ extension
    let gitapi_path := ["src", ext_type, extension]
    let git_path := reference :: ["src", ext_type, extension]
    let new_repo_path := tmp_candidate
    let fs1 := fs.makedirs new_repo_path
    let rm_folders := [new_repo_path]
    let r := download_git remote reference fuel gitapi_path git_path new_repo_path fs1 2
    match r.2.2 with
    | some e =>
      { fs := r.1, calls := [], rm_folders := rm_folders,
        fetch_request := some (gitapi_path, reference),
        fatal := some (fatalText extension_folder reference e), warning := none }
    | none =>
      let extension_path := new_repo_path ++ [extension]
      { fs := r.1,
        calls := [⟨extension, some extension_path, operation, gextension_flags⟩],
        rm_folders := rm_folders, fetch_request := some (gitapi_path, reference),
        fatal := none, warning := none }
  else
    { fs := fs, calls := [], rm_folders := [], fetch_request := none,
      fatal := none, warning := some "Nothing done" }

/-- Lines 106-112: `cleanup()`.  Removes every registered folder that
exists.  (`curr_path` is only ever assigned inside the commented-out
legacy block, so the `os.chdir` tail is dead in the live code path.) -/
def cleanup (rm_folders : List FPath) (fs : FS) : FS :=
  rm_folders.foldl (fun acc folder => if acc.isdir folder then acc.rmtree folder else acc) fs

/-- Lines 299-302: the whole process — `atexit.register(cleanup)` followed
by `main()`; `cleanup` runs at process exit on every exit path of `main`
(normal return, `sys.exit` via `grass.fatal`, and uncaught exceptions all
run `atexit` handlers). -/
def run_process (remote : Remote) (fuel : Nat) (options : Options) (flags : Flags)
    (tmp_candidate : FPath) (fs : FS) : FS :=
  let out := Script.main remote fuel options flags tmp_candidate fs
  cleanup out.rm_folders out.fs

/-- The two environment variables consulted for authentication. -/
structure Env where
  GITHUB_USERNAME : Option String
  GITHUB_TOKEN : Option String

/-- A prepared `urllib.request.Request`: the URL and the HTTP Basic
credentials attached via the `Authorization` header, if any (the base64
encoding of `user:token` is abstracted to the pair itself). -/
structure Request where
  url : String
  authorization : Option (String × String)
deriving Repr, DecidableEq

/-- Lines 135-140: `urlopen_with_auth(url)` — the request it issues,
together with the list of messages the function logs (the source logs
nothing in this function). -/
def urlopen_with_auth (env : Env) (url : String) : Request × List String :=
  let request : Request := ⟨url, none⟩
  let request :=
    if env.GITHUB_TOKEN.isSome && env.GITHUB_USERNAME.isSome then
      { request with
        authorization := some (env.GITHUB_USERNAME.getD "", env.GITHUB_TOKEN.getD "") }
    else request
  (request, [])

/-- Lines 144-149: the session authentication set up by
`urlretrieve_with_auth` — the HTTP Basic credentials the session uses, if
any, together with the messages logged (none in the source). -/
def urlretrieve_with_auth_session (env : Env) : Option (String × String) × List String :=
  (if env.GITHUB_TOKEN.isSome && env.GITHUB_USERNAME.isSome then
     some (env.GITHUB_USERNAME.getD "", env.GITHUB_TOKEN.getD "")
   else none,
   [])

/-- Line 101-103: the remote roots.  In the embedding URLs are represented
by their path components after these roots, so the constants are recorded
for documentation of the correspondence only. -/
def GIT_URL : String := "https://github.com/OSGeo/grass-addons"

def RAW_URL : String := "https://raw.githubusercontent.com/OSGeo/grass-addons"

def API_URL : String := "https://api.github.com/repos/OSGeo/grass-addons/contents"

/-- A finite git tree at one reference.  A `(extensionName, reference)`
pair "exists remotely" exactly when the remote is backed by such a tree
(`remoteOfTree`). -/
inductive GitTree where
  | file (content : Bytes)
  | dir (children : List (String × GitTree))
deriving Repr

mutual

/-- Height of a tree: 0 for a file, 1 + maximum child depth for a
directory; a fuel bound for `download_git`. -/
def GitTree.depth : GitTree → Nat
  | .file _ => 0
  | .dir cs => depthList cs + 1

def depthList : List (String × GitTree) → Nat
  | [] => 0
  | (_, t) :: rest => max t.depth (depthList rest)

end

mutual

/-- The leaf files of a tree, as (relative path, content) pairs. -/
def GitTree.leaves : GitTree → List (FPath × Bytes)
  | .file c => [([], c)]
  | .dir cs => leavesList cs

def leavesList : List (String × GitTree) → List (FPath × Bytes)
  | [] => []
  | (n, t) :: rest => (t.leaves.map (fun rc => (n :: rc.1, rc.2))) ++ leavesList rest

end

mutual

/-- The relative paths of all directory nodes of a tree, in the pre-order
in which `download_git` visits them (`[]` is the tree's own root when it
is a directory). -/
def GitTree.dirRels : GitTree → List FPath
  | .file _ => []
  | .dir cs => [] :: dirRelsList cs

def dirRelsList : List (String × GitTree) → List FPath
  | [] => []
  | (n, t) :: rest => (t.dirRels.map (n :: ·)) ++ dirRelsList rest

end

/-- No duplicate names in a directory listing. -/
def nodupKeys : List String → Bool
  | [] => true
  | n :: rest => !(rest.contains n) && nodupKeys rest

mutual

/-- Well-formedness of a remote tree: every directory's child names are
distinct (as in a real git tree). -/
def GitTree.wfb : GitTree → Bool
  | .file _ => true
  | .dir cs => nodupKeys (cs.map Prod.fst) && wfbList cs

def wfbList : List (String × GitTree) → Bool
  | [] => true
  | (_, t) :: rest => t.wfb && wfbList rest

end

/-- Resolve a repo-relative path inside a tree. -/
def findNode : GitTree → FPath → Option GitTree
  | t, [] => some t
  | .file _, _ :: _ => none
  | .dir cs, n :: r =>
    match List.lookup n cs with
    | some t => findNode t r
    | none => none

/-- The contents-API JSON object for one child of the directory at
`repoPath`: full repo-relative `path`, and for a file a `download_url`
pointing at `{RAW_URL}/{reference}/{path}` (so its basename is the file
name), null for a directory. -/
def entryOf (reference : String) (repoPath : FPath) (nt : String × GitTree) : ListingEntry :=
  match nt with
  | (n, .file _) => ⟨n, repoPath ++ [n], some (reference :: (repoPath ++ [n]))⟩
  | (n, .dir _) => ⟨n, repoPath ++ [n], none⟩

/-- The remote backed by `tree` at reference `reference`: the listing of a
directory path is its children (the GitHub contents API); listing a file
path yields a non-array JSON body (iterating it raises, modelled as
`badJson`); a missing path or wrong reference yields HTTP 404.  The raw
endpoint serves `{reference}/{path}` for file paths of the tree with
status 200 and anything else with status 404. -/
def remoteOfTree (tree : GitTree) (reference : String) : Remote where
  api := fun p ref =>
    if ref = reference then
      match findNode tree p with
      | some (.dir cs) => .ok (cs.map (entryOf reference p))
      | some (.file _) => .error .badJson
      | none => .error (.http 404)
    else .error (.http 404)
  raw := fun p =>
    match p with
    | [] => none
    | ref :: q =>
      if ref = reference then
        match findNode tree q with
        | some (.file c) => some c
        | _ => none
      else none

/-- The local files `download_git` is expected to produce for leaves
`lvs` (relative to `repoPath`): remote path minus its first two
components, joined under `tmp_dir`. -/
def fetchedFiles (tmp_dir repoPath : FPath) (lvs : List (FPath × Bytes)) : List (FPath × Bytes) :=
  lvs.map (fun rc => (tmp_dir ++ (repoPath ++ rc.1).drop 2, rc.2))

/-- The leaf files of `t` with their full repo-relative paths below
`repoPath`. -/
def leavesAbs (t : GitTree) (repoPath : FPath) : List (FPath × Bytes) :=
  t.leaves.map (fun rc => (repoPath ++ rc.1, rc.2))

/-- Containment of `needle` in `hay` as a contiguous substring. -/
def containsStr (hay needle : String) : Prop :=
  ∃ l r, hay.data = l ++ needle.data ++ r

/-- The children of the sample `i.sentinel` extension directory used by
witnesses: one file and one subdirectory. -/
def cs0 : List (String × GitTree) :=
  [("Makefile", .file [77]),
   ("i.sentinel.download", .dir [("main.py", .file [10, 20])])]

/-- Concrete tree used by witnesses: a repository holding
`src/imagery/i.sentinel` with one file and one subdirectory. -/
def tree0 : GitTree :=
  .dir [("src", .dir [("imagery", .dir [("i.sentinel", .dir cs0)])])]

/-- Concrete commit hash (40 characters) used by witnesses. -/
def ref0 : String := "aff69a9a0dac8c68ccb877858675d84588b35bd2"

/-- Concrete remote used by witnesses. -/
def remote0 : Remote := remoteOfTree tree0 ref0

/-- Concrete temporary directory used by witnesses. -/
def tmp0 : FPath := ["tmp", "gxt_addon"]

/-- A remote on which every request fails (used by error witnesses). -/
def remoteDown : Remote :=
  ⟨fun _ _ => .error (.http 404), fun _ => none⟩

/-- A remote whose listing of `src/x/e` holds a single file entry but
whose raw endpoint answers non-200 for every URL (used to exhibit the
silently skipped raw download). -/
def remoteRawFail : Remote :=
  ⟨fun p ref =>
    if p = ["src", "x", "e"] ∧ ref = "r" then
      .ok [⟨"f", ["src", "x", "e", "f"], some ["r", "src", "x", "e", "f"]⟩]
    else .error (.http 404),
   fun _ => none⟩

theorem beginsWith_iff (d p : FPath) : beginsWith d p = true ↔ ∃ r, p = d ++ r := by
  induction d generalizing p with
  | nil => simp [beginsWith]
  | cons a as ih =>
    cases p with
    | nil =>
      simp only [beginsWith]
      refine ⟨fun h => absurd h (by simp), ?_⟩
      rintro ⟨r, hr⟩
      exact absurd hr (by simp)
    | cons b bs =>
      simp only [beginsWith, Bool.and_eq_true, beq_iff_eq, ih]
      constructor
      · rintro ⟨rfl, r, rfl⟩
        exact ⟨r, rfl⟩
      · rintro ⟨r, hr⟩
        injection hr with h1 h2
        exact ⟨h1.symm, r, h2⟩

theorem mem_ancestors_self (p : FPath) : p ∈ ancestors p := by
  induction p with
  | nil => simp [ancestors]
  | cons a as ih =>
    simp only [ancestors, List.mem_cons, List.mem_map]
    exact Or.inr ⟨as, ih, rfl⟩

theorem lookup_isSome_iff (q : FPath) (l : List (FPath × Bytes)) :
    (List.lookup q l).isSome = true ↔ q ∈ l.map Prod.fst := by
  induction l with
  | nil => simp [List.lookup]
  | cons e rest ih =>
    by_cases h : q = e.1
    · simp [List.lookup, h]
    · simp [List.lookup, beq_eq_false_iff_ne.mpr h, ih, h]

theorem lookup_mem {q : FPath} {c : Bytes} {l : List (FPath × Bytes)} :
    List.lookup q l = some c → (q, c) ∈ l := by
  induction l with
  | nil => simp [List.lookup]
  | cons e rest ih =>
    obtain ⟨k, v⟩ := e
    by_cases h : q = k
    · subst h
      simp only [List.lookup, beq_self_eq_true, List.mem_cons]
      intro hc
      injection hc with hc
      exact Or.inl (by rw [hc])
    · simp only [List.lookup, beq_eq_false_iff_ne.mpr h, List.mem_cons]
      intro hc
      exact Or.inr (ih hc)

theorem lookup_cons_self {k : FPath} {v : Bytes} {l : List (FPath × Bytes)} :
    List.lookup k ((k, v) :: l) = some v := by
  simp [List.lookup]

theorem lookup_cons_ne {q k : FPath} {v : Bytes} {l : List (FPath × Bytes)} (h : q ≠ k) :
    List.lookup q ((k, v) :: l) = List.lookup q l := by
  simp [List.lookup, beq_eq_false_iff_ne.mpr h]

theorem lookup_append (q : FPath) (l1 l2 : List (FPath × Bytes)) :
    List.lookup q (l1 ++ l2) = (List.lookup q l1).or (List.lookup q l2) := by
  induction l1 with
  | nil => simp [List.lookup]
  | cons e rest ih =>
    by_cases h : q = e.1
    · subst h
      simp [List.lookup]
    · obtain ⟨k, v⟩ := e
      simp only [List.cons_append, lookup_cons_ne h, ih]

theorem lookup_eq_none_of_not_mem {q : FPath} {l : List (FPath × Bytes)}
    (h : q ∉ l.map Prod.fst) : List.lookup q l = none := by
  cases hl : List.lookup q l with
  | none => rfl
  | some c =>
    exact absurd ((lookup_isSome_iff q l).mp (by simp [hl])) h

theorem lookup_or_comm {q : FPath} {l1 l2 : List (FPath × Bytes)}
    (h : (l1.map Prod.fst).Disjoint (l2.map Prod.fst)) :
    (List.lookup q l1).or (List.lookup q l2) = (List.lookup q l2).or (List.lookup q l1) := by
  cases h1 : List.lookup q l1 with
  | none => simp
  | some c1 =>
    have hq1 : q ∈ l1.map Prod.fst := (lookup_isSome_iff q l1).mp (by simp [h1])
    have h2 : List.lookup q l2 = none := lookup_eq_none_of_not_mem (h hq1)
    simp [h2]

theorem mem_lookup {q : FPath} {c : Bytes} {l : List (FPath × Bytes)}
    (hn : (l.map Prod.fst).Nodup) (hm : (q, c) ∈ l) : List.lookup q l = some c := by
  induction l with
  | nil => cases hm
  | cons e rest ih =>
    obtain ⟨k, v⟩ := e
    simp only [List.map_cons, List.nodup_cons] at hn
    rcases List.mem_cons.mp hm with h | h
    · injection h with h1 h2
      subst h1; subst h2
      exact lookup_cons_self
    · have hqk : q ≠ k := by
        intro hqk
        subst hqk
        exact hn.1 (List.mem_map_of_mem Prod.fst h)
      rw [lookup_cons_ne hqk]
      exact ih hn.2 h

theorem drop_two_append {p : FPath} (h : 2 ≤ p.length) (r : FPath) :
    (p ++ r).drop 2 = p.drop 2 ++ r := by
  match p, h with
  | a :: b :: p', _ => simp

theorem readFile_writeFile (fs : FS) (p q : FPath) (c : Bytes) :
    (fs.writeFile p c).readFile q = if q = p then some c else fs.readFile q := by
  by_cases h : q = p
  · subst h
    simp [FS.writeFile, FS.readFile, lookup_cons_self]
  · simp [FS.writeFile, FS.readFile, lookup_cons_ne h, h]

theorem files_mkParent (fs : FS) (p : FPath) : (mkParent fs p).files = fs.files := by
  unfold mkParent
  split <;> simp [FS.makedirs]

theorem readFile_mkParent (fs : FS) (p q : FPath) :
    (mkParent fs p).readFile q = fs.readFile q := by
  simp [FS.readFile, files_mkParent]

theorem dirs_subset_mkParent (fs : FS) (p : FPath) :
    ∀ x ∈ fs.dirs, x ∈ (mkParent fs p).dirs := by
  unfold mkParent
  split
  · exact fun x hx => hx
  · intro x hx
    simp [FS.makedirs]
    exact Or.inr hx

theorem dirs_writeFile (fs : FS) (p : FPath) (c : Bytes) :
    (fs.writeFile p c).dirs = fs.dirs := rfl

theorem nodupKeys_iff (l : List String) : nodupKeys l = true ↔ l.Nodup := by
  induction l with
  | nil => simp [nodupKeys]
  | cons n rest ih => simp [nodupKeys, ih, List.nodup_cons]

theorem mem_lookup_child {n : String} {t : GitTree} {cs : List (String × GitTree)}
    (hn : nodupKeys (cs.map Prod.fst) = true) (hm : (n, t) ∈ cs) :
    List.lookup n cs = some t := by
  induction cs with
  | nil => cases hm
  | cons e rest ih =>
    obtain ⟨k, v⟩ := e
    simp only [List.map_cons, nodupKeys, Bool.and_eq_true] at hn
    have hk : k ∉ rest.map Prod.fst := by simpa using hn.1
    rcases List.mem_cons.mp hm with h | h
    · injection h with h1 h2
      subst h1; subst h2
      simp [List.lookup]
    · have hnk : n ≠ k := by
        intro he
        subst he
        exact hk (List.mem_map_of_mem _ h)
      simp only [List.lookup, beq_eq_false_iff_ne.mpr hnk]
      exact ih hn.2 h

theorem lookup_child_unique {n : String} {a b : GitTree} {cs : List (String × GitTree)}
    (hn : nodupKeys (cs.map Prod.fst) = true) (ha : (n, a) ∈ cs) (hb : (n, b) ∈ cs) :
    a = b := by
  have h1 := mem_lookup_child hn ha
  have h2 := mem_lookup_child hn hb
  rw [h1] at h2
  exact Option.some.inj h2

theorem findNode_child {tree t : GitTree} {p : FPath} {cs : List (String × GitTree)} {n : String}
    (hf : findNode tree p = some (.dir cs)) (hl : List.lookup n cs = some t) :
    findNode tree (p ++ [n]) = some t := by
  induction p generalizing tree with
  | nil =>
    simp only [findNode, Option.some.injEq] at hf
    subst hf
    simp [findNode, hl]
  | cons a as ih =>
    cases tree with
    | file c => simp [findNode] at hf
    | dir cs0 =>
      rw [List.cons_append]
      simp only [findNode] at hf ⊢
      cases hla : List.lookup a cs0 with
      | none =>
        rw [hla] at hf
        simp at hf
      | some t0 =>
        rw [hla] at hf
        exact ih hf

theorem depthList_le {cs : List (String × GitTree)} {n : String} {t : GitTree}
    (h : (n, t) ∈ cs) : t.depth ≤ depthList cs := by
  induction cs with
  | nil => cases h
  | cons e rest ih =>
    obtain ⟨k, v⟩ := e
    rcases List.mem_cons.mp h with h1 | h1
    · injection h1 with h1 h2
      subst h1; subst h2
      simp [depthList]
    · exact le_trans (ih h1) (by simp [depthList])

theorem wfbList_mem {cs : List (String × GitTree)} {n : String} {t : GitTree}
    (hw : wfbList cs = true) (h : (n, t) ∈ cs) : t.wfb = true := by
  induction cs with
  | nil => cases h
  | cons e rest ih =>
    obtain ⟨k, v⟩ := e
    simp only [wfbList, Bool.and_eq_true] at hw
    rcases List.mem_cons.mp h with h1 | h1
    · injection h1 with h1 h2
      subst h1; subst h2
      exact hw.1
    · exact ih hw.2 h1

theorem leavesList_key_shape {cs : List (String × GitTree)} {q : FPath}
    (h : q ∈ (leavesList cs).map Prod.fst) :
    ∃ n t rq, (n, t) ∈ cs ∧ q = n :: rq ∧ rq ∈ t.leaves.map Prod.fst := by
  induction cs with
  | nil => simp [leavesList] at h
  | cons e rest ih =>
    obtain ⟨k, v⟩ := e
    simp only [leavesList, List.map_append, List.mem_append, List.map_map] at h
    rcases h with h | h
    · simp only [List.mem_map, Function.comp] at h
      obtain ⟨rc, hrc, hq⟩ := h
      exact ⟨k, v, rc.1, List.mem_cons_self _ _, hq.symm, List.mem_map_of_mem _ hrc⟩
    · obtain ⟨n, t, rq, hm, hq, hrq⟩ := ih h
      exact ⟨n, t, rq, List.mem_cons_of_mem _ hm, hq, hrq⟩

theorem dirRelsList_shape {cs : List (String × GitTree)} {q : FPath}
    (h : q ∈ dirRelsList cs) :
    ∃ n t rq, (n, t) ∈ cs ∧ q = n :: rq ∧ rq ∈ t.dirRels := by
  induction cs with
  | nil => simp [dirRelsList] at h
  | cons e rest ih =>
    obtain ⟨k, v⟩ := e
    simp only [dirRelsList, List.mem_append] at h
    rcases h with h | h
    · simp only [List.mem_map] at h
      obtain ⟨rq, hrq, hq⟩ := h
      exact ⟨k, v, rq, List.mem_cons_self _ _, hq.symm, hrq⟩
    · obtain ⟨n, t, rq, hm, hq, hrq⟩ := ih h
      exact ⟨n, t, rq, List.mem_cons_of_mem _ hm, hq, hrq⟩

theorem leavesList_keys_nodup_of {cs : List (String × GitTree)}
    (hnk : nodupKeys (cs.map Prod.fst) = true)
    (hch : ∀ nt ∈ cs, ((nt.2 : GitTree).leaves.map Prod.fst).Nodup) :
    ((leavesList cs).map Prod.fst).Nodup := by
  induction cs with
  | nil => simp [leavesList]
  | cons e rest ih =>
    obtain ⟨k, v⟩ := e
    simp only [List.map_cons, nodupKeys, Bool.and_eq_true] at hnk
    have hk : k ∉ rest.map Prod.fst := by simpa using hnk.1
    simp only [leavesList, List.map_append, List.nodup_append]
    refine ⟨?_, ih hnk.2 (fun nt hnt => hch nt (List.mem_cons_of_mem _ hnt)), ?_⟩
    · have hv := hch (k, v) (List.mem_cons_self _ _)
      simp only [List.map_map]
      have : (Prod.fst ∘ fun rc : FPath × Bytes => (k :: rc.1, rc.2)) =
          ((k :: ·) ∘ Prod.fst) := rfl
      rw [this, ← List.map_map]
      exact hv.map (fun a b hab => by injection hab)
    · intro q hq hq2
      simp only [List.map_map] at hq
      simp only [List.mem_map, Function.comp] at hq
      obtain ⟨rc, hrc, hqe⟩ := hq
      obtain ⟨n, t, rq, hm, hqe2, hrq⟩ := leavesList_key_shape hq2
      rw [← hqe] at hqe2
      injection hqe2 with h1 h2
      subst h1
      exact hk (List.mem_map_of_mem _ hm)

theorem leaves_keys_nodup : ∀ (b : Nat) (t : GitTree), t.depth ≤ b → t.wfb = true →
    (t.leaves.map Prod.fst).Nodup := by
  intro b
  induction b with
  | zero =>
    intro t hd hw
    cases t with
    | file c => simp [GitTree.leaves]
    | dir cs => simp [GitTree.depth] at hd
  | succ b ih =>
    intro t hd hw
    cases t with
    | file c => simp [GitTree.leaves]
    | dir cs =>
      simp only [GitTree.depth, Nat.add_le_add_iff_right] at hd
      simp only [GitTree.wfb, Bool.and_eq_true] at hw
      simp only [GitTree.leaves]
      exact leavesList_keys_nodup_of hw.1 (fun nt hnt =>
        ih nt.2 (le_trans (depthList_le (by simpa using hnt)) hd)
          (wfbList_mem hw.2 (by simpa using hnt)))

theorem dirRels_disjoint_leaves : ∀ (b : Nat) (t : GitTree), t.depth ≤ b → t.wfb = true →
    ∀ d ∈ t.dirRels, d ∉ t.leaves.map Prod.fst := by
  intro b
  induction b with
  | zero =>
    intro t hd hw
    cases t with
    | file c => simp [GitTree.dirRels]
    | dir cs => simp [GitTree.depth] at hd
  | succ b ih =>
    intro t hd hw
    cases t with
    | file c => simp [GitTree.dirRels]
    | dir cs =>
      simp only [GitTree.depth, Nat.add_le_add_iff_right] at hd
      simp only [GitTree.wfb, Bool.and_eq_true] at hw
      simp only [GitTree.dirRels, GitTree.leaves, List.mem_cons]
      rintro d (rfl | hd2)
      · intro hmem
        obtain ⟨n, t', rq, hm, hq, hrq⟩ := leavesList_key_shape hmem
        cases hq
      · intro hmem
        obtain ⟨n1, t1, r1, hm1, hq1, hr1⟩ := dirRelsList_shape hd2
        obtain ⟨n2, t2, r2, hm2, hq2, hr2⟩ := leavesList_key_shape hmem
        rw [hq1] at hq2
        injection hq2 with hh1 hh2
        subst hh1
        subst hh2
        have ht12 : t1 = t2 := lookup_child_unique hw.1 hm1 hm2
        subst ht12
        exact ih t1 (le_trans (depthList_le hm1) hd) (wfbList_mem hw.2 hm1) r1 hr1 hr2

theorem basename_concat (l : FPath) (n : String) : basename (l ++ [n]) = n := by
  simp [basename]

theorem fetchedFiles_append (tmp p : FPath) (a b : List (FPath × Bytes)) :
    fetchedFiles tmp p (a ++ b) = fetchedFiles tmp p a ++ fetchedFiles tmp p b := by
  simp [fetchedFiles]

theorem fetchedFiles_child (tmp p : FPath) (n : String) (lvs : List (FPath × Bytes)) :
    fetchedFiles tmp p (lvs.map (fun rc => (n :: rc.1, rc.2))) =
      fetchedFiles tmp (p ++ [n]) lvs := by
  induction lvs with
  | nil => simp [fetchedFiles]
  | cons rc rest ih =>
    simp only [fetchedFiles, List.map_map, List.map_cons] at ih ⊢
    rw [List.append_cons p n rc.1] at *
    exact congrArg₂ _ (by rw [← List.append_cons p n rc.1]) ih

theorem fetchedFiles_keys_nodup {tmp p : FPath} (h2 : 2 ≤ p.length)
    {lvs : List (FPath × Bytes)} (h : (lvs.map Prod.fst).Nodup) :
    ((fetchedFiles tmp p lvs).map Prod.fst).Nodup := by
  simp only [fetchedFiles, List.map_map]
  have hco : (Prod.fst ∘ fun rc : FPath × Bytes => (tmp ++ (p ++ rc.1).drop 2, rc.2)) =
      (fun r => (tmp ++ p.drop 2) ++ r) ∘ Prod.fst := by
    funext rc
    simp [drop_two_append h2]
  rw [hco, ← List.map_map]
  exact h.map (fun a b hab => List.append_cancel_left hab)

theorem dirs_urlretrieve (remote : Remote) (url path : FPath) (fs : FS) :
    (urlretrieve_with_auth remote url path fs).dirs = fs.dirs := by
  cases h : remote.raw url <;> simp [urlretrieve_with_auth, h, FS.writeFile]

theorem loop_dirs_mono_of (remote : Remote) (reference : String) (fuel : Nat)
    (hdl : ∀ gitapi_path git_path tmp_dir fs lstrip, ∀ d ∈ FS.dirs fs,
      d ∈ (download_git remote reference fuel gitapi_path git_path tmp_dir fs lstrip).1.dirs) :
    ∀ content gitapi_path git_path tmp_dir lstrip fs, ∀ d ∈ FS.dirs fs,
      d ∈ (dl_loop remote reference fuel gitapi_path git_path tmp_dir lstrip content fs).1.dirs := by
  intro content
  induction content with
  | nil =>
    intro p g tmp lstrip fs d hd
    simpa [dl_loop] using hd
  | cons element rest ih =>
    intro p g tmp lstrip fs d hd
    have hd1 : d ∈ (mkParent fs (tmp ++ element.path.drop lstrip)).dirs :=
      dirs_subset_mkParent fs _ d hd
    cases hdu : element.download_url with
    | some durl =>
      simp only [dl_loop, hdu]
      apply ih
      rw [dirs_urlretrieve]
      exact hd1
    | none =>
      simp only [dl_loop, hdu]
      have hr := hdl (p ++ [element.name]) (g ++ [element.name]) tmp _ 2 d hd1
      cases hre : (download_git remote reference fuel (p ++ [element.name])
          (g ++ [element.name]) tmp (mkParent fs (tmp ++ element.path.drop lstrip)) 2).2.2 with
      | some e =>
        simp only [hre]
        exact hr
      | none =>
        simp only [hre]
        exact ih _ _ _ _ _ d hr

theorem download_git_dirs_mono : ∀ (fuel : Nat) (remote : Remote) (reference : String)
    (gitapi_path git_path tmp_dir : FPath) (fs : FS) (lstrip : Nat),
    ∀ d ∈ fs.dirs,
      d ∈ (download_git remote reference fuel gitapi_path git_path tmp_dir fs lstrip).1.dirs := by
  intro fuel
  induction fuel with
  | zero =>
    intro remote reference p g tmp fs lstrip d hd
    simpa [download_git] using hd
  | succ f ih =>
    intro remote reference p g tmp fs lstrip d hd
    cases hapi : remote.api p reference with
    | error e => simpa [download_git, hapi] using hd
    | ok content =>
      simp only [download_git, hapi]
      exact loop_dirs_mono_of remote reference f
        (fun p' g' tmp' fs' lstrip' => ih remote reference p' g' tmp' fs' lstrip')
        content p g tmp lstrip fs d hd

theorem dl_loop_cons_file {remote : Remote} {reference : String} {fuel : Nat}
    {gitapi_path git_path tmp_dir : FPath} {lstrip : Nat} {el : ListingEntry}
    {rest : List ListingEntry} {fs : FS} {durl : FPath} {content : Bytes}
    (hdu : el.download_url = some durl)
    (hraw : remote.raw (git_path ++ [basename durl]) = some content) :
    dl_loop remote reference fuel gitapi_path git_path tmp_dir lstrip (el :: rest) fs =
      dl_loop remote reference fuel gitapi_path git_path tmp_dir lstrip rest
        ((mkParent fs (tmp_dir ++ el.path.drop lstrip)).writeFile
          (tmp_dir ++ el.path.drop lstrip) content) := by
  simp only [dl_loop, hdu, urlretrieve_with_auth, hraw]

theorem dl_loop_cons_file_fail {remote : Remote} {reference : String} {fuel : Nat}
    {gitapi_path git_path tmp_dir : FPath} {lstrip : Nat} {el : ListingEntry}
    {rest : List ListingEntry} {fs : FS} {durl : FPath}
    (hdu : el.download_url = some durl)
    (hraw : remote.raw (git_path ++ [basename durl]) = none) :
    dl_loop remote reference fuel gitapi_path git_path tmp_dir lstrip (el :: rest) fs =
      dl_loop remote reference fuel gitapi_path git_path tmp_dir lstrip rest
        (mkParent fs (tmp_dir ++ el.path.drop lstrip)) := by
  simp only [dl_loop, hdu, urlretrieve_with_auth, hraw]

theorem dl_loop_cons_dir_err {remote : Remote} {reference : String} {fuel : Nat}
    {gitapi_path git_path tmp_dir : FPath} {lstrip : Nat} {el : ListingEntry}
    {rest : List ListingEntry} {fs fsA : FS} {reqsA : List (FPath × String)} {e : DlErr}
    (hdu : el.download_url = none)
    (hrec : download_git remote reference fuel (gitapi_path ++ [el.name])
        (git_path ++ [el.name]) tmp_dir (mkParent fs (tmp_dir ++ el.path.drop lstrip)) 2
      = (fsA, reqsA, some e)) :
    dl_loop remote reference fuel gitapi_path git_path tmp_dir lstrip (el :: rest) fs =
      (fsA, reqsA, some e) := by
  simp only [dl_loop, hdu, hrec]

theorem dl_loop_cons_dir_ok {remote : Remote} {reference : String} {fuel : Nat}
    {gitapi_path git_path tmp_dir : FPath} {lstrip : Nat} {el : ListingEntry}
    {rest : List ListingEntry} {fs fsA : FS} {reqsA : List (FPath × String)}
    (hdu : el.download_url = none)
    (hrec : download_git remote reference fuel (gitapi_path ++ [el.name])
        (git_path ++ [el.name]) tmp_dir (mkParent fs (tmp_dir ++ el.path.drop lstrip)) 2
      = (fsA, reqsA, none)) :
    dl_loop remote reference fuel gitapi_path git_path tmp_dir lstrip (el :: rest) fs =
      ((dl_loop remote reference fuel gitapi_path git_path tmp_dir lstrip rest fsA).1,
       reqsA ++ (dl_loop remote reference fuel gitapi_path git_path tmp_dir lstrip rest fsA).2.1,
       (dl_loop remote reference fuel gitapi_path git_path tmp_dir lstrip rest fsA).2.2) := by
  simp only [dl_loop, hdu, hrec]

theorem apiOfTree_dir {tree : GitTree} {reference : String} {p : FPath}
    {cs : List (String × GitTree)} (h : findNode tree p = some (.dir cs)) :
    (remoteOfTree tree reference).api p reference = .ok (cs.map (entryOf reference p)) := by
  simp [remoteOfTree, h]

theorem rawOfTree_file {tree : GitTree} {reference : String} {q : FPath} {c : Bytes}
    (h : findNode tree q = some (.file c)) :
    (remoteOfTree tree reference).raw (reference :: q) = some c := by
  simp [remoteOfTree, h]

theorem dl_loop_tree_spec (tree : GitTree) (reference : String) (tmp_dir : FPath) (f : Nat)
    (ih : ∀ (p : FPath) (cs : List (String × GitTree)) (fs : FS),
      findNode tree p = some (.dir cs) → (GitTree.dir cs).wfb = true →
      (GitTree.dir cs).depth ≤ f → 2 ≤ p.length →
      ∃ fs',
        download_git (remoteOfTree tree reference) reference f p (reference :: p) tmp_dir fs 2
          = (fs', ((GitTree.dir cs).dirRels).map (fun d => (p ++ d, reference)), none)
        ∧ (∀ q, fs'.readFile q
            = (List.lookup q (fetchedFiles tmp_dir p ((GitTree.dir cs).leaves))).or (fs.readFile q))
        ∧ (∀ d ∈ fs.dirs, d ∈ fs'.dirs))
    (p : FPath) (hlen : 2 ≤ p.length) :
    ∀ (cs' : List (String × GitTree)) (fs : FS),
      (∀ nt ∈ cs', findNode tree (p ++ [nt.1]) = some nt.2) →
      (∀ nt ∈ cs', GitTree.wfb nt.2 = true) →
      (∀ nt ∈ cs', GitTree.depth nt.2 ≤ f) →
      ((fetchedFiles tmp_dir p (leavesList cs')).map Prod.fst).Nodup →
      ∃ fs',
        dl_loop (remoteOfTree tree reference) reference f p (reference :: p) tmp_dir 2
            (cs'.map (entryOf reference p)) fs
          = (fs', (dirRelsList cs').map (fun d => (p ++ d, reference)), none)
        ∧ (∀ q, fs'.readFile q
            = (List.lookup q (fetchedFiles tmp_dir p (leavesList cs'))).or (fs.readFile q))
        ∧ (∀ d ∈ fs.dirs, d ∈ fs'.dirs) := by
  intro cs'
  induction cs' with
  | nil =>
    intro fs _ _ _ _
    refine ⟨fs, ?_, ?_, fun d hd => hd⟩
    · simp [dl_loop, dirRelsList]
    · intro q
      simp [fetchedFiles, leavesList, List.lookup]
  | cons nt rest ihcs =>
    obtain ⟨n, t⟩ := nt
    intro fs hch hwch hdch hnodup
    have hch0 : findNode tree (p ++ [n]) = some t := hch (n, t) (List.mem_cons_self _ _)
    have hchr : ∀ nt ∈ rest, findNode tree (p ++ [nt.1]) = some nt.2 :=
      fun nt hnt => hch nt (List.mem_cons_of_mem _ hnt)
    have hwchr : ∀ nt ∈ rest, GitTree.wfb nt.2 = true :=
      fun nt hnt => hwch nt (List.mem_cons_of_mem _ hnt)
    have hdchr : ∀ nt ∈ rest, GitTree.depth nt.2 ≤ f :=
      fun nt hnt => hdch nt (List.mem_cons_of_mem _ hnt)
    cases t with
    | file c =>
      -- the entry of a file child
      have hel : entryOf reference p (n, GitTree.file c)
          = ⟨n, p ++ [n], some (reference :: (p ++ [n]))⟩ := rfl
      have hfl : fetchedFiles tmp_dir p (leavesList ((n, GitTree.file c) :: rest))
          = (tmp_dir ++ (p ++ [n]).drop 2, c) :: fetchedFiles tmp_dir p (leavesList rest) := by
        simp [leavesList, GitTree.leaves, fetchedFiles]
      rw [hfl] at hnodup
      simp only [List.map_cons, List.nodup_cons] at hnodup
      have hraw : (remoteOfTree tree reference).raw ((reference :: p) ++ [n]) = some c := by
        rw [List.cons_append]
        exact rawOfTree_file hch0
      have hbn : basename (reference :: (p ++ [n])) = n := by
        rw [← List.cons_append]
        exact basename_concat _ _
      set path := tmp_dir ++ (p ++ [n]).drop 2 with hpath
      set fs2 := (mkParent fs path).writeFile path c with hfs2
      obtain ⟨fs', heq, hread, hdirs⟩ := ihcs fs2 hchr hwchr hdchr hnodup.2
      refine ⟨fs', ?_, ?_, ?_⟩
      · rw [List.map_cons, hel]
        rw [dl_loop_cons_file
          (show (⟨n, p ++ [n], some (reference :: (p ++ [n]))⟩ : ListingEntry).download_url
            = some (reference :: (p ++ [n])) from rfl)
          (by rw [hbn]; exact hraw)]
        rw [heq]
        simp [dirRelsList, GitTree.dirRels]
      · intro q
        rw [hfl]
        by_cases hq : q = path
        · rw [hq, hread path]
          have hnone : List.lookup path (fetchedFiles tmp_dir p (leavesList rest)) = none :=
            lookup_eq_none_of_not_mem hnodup.1
          rw [hnone, lookup_cons_self]
          simp only [Option.none_or, Option.or_some]
          rw [readFile_writeFile]
          simp
        · rw [hread q, lookup_cons_ne hq]
          have : fs2.readFile q = fs.readFile q := by
            rw [readFile_writeFile]
            simp only [hq, if_false]
            exact readFile_mkParent fs path q
          rw [this]
      · intro d hd
        apply hdirs
        show d ∈ fs2.dirs
        rw [hfs2, dirs_writeFile]
        exact dirs_subset_mkParent fs path d hd
    | dir cs2 =>
      have hel : entryOf reference p (n, GitTree.dir cs2) = ⟨n, p ++ [n], none⟩ := rfl
      have hfl : fetchedFiles tmp_dir p (leavesList ((n, GitTree.dir cs2) :: rest))
          = fetchedFiles tmp_dir (p ++ [n]) (GitTree.leaves (GitTree.dir cs2))
            ++ fetchedFiles tmp_dir p (leavesList rest) := by
        simp only [leavesList, fetchedFiles_append, fetchedFiles_child]
      rw [hfl] at hnodup
      rw [List.map_append, List.nodup_append] at hnodup
      obtain ⟨hnodupA, hnodupR, hdisj⟩ := hnodup
      set path := tmp_dir ++ (p ++ [n]).drop 2 with hpath
      obtain ⟨fsA, heqA, hreadA, hdirsA⟩ := ih (p ++ [n]) cs2 (mkParent fs path) hch0
        (hwch (n, GitTree.dir cs2) (List.mem_cons_self _ _))
        (hdch (n, GitTree.dir cs2) (List.mem_cons_self _ _))
        (by simp only [List.length_append, List.length_cons, List.length_nil]; omega)
      obtain ⟨fs', heqR, hreadR, hdirsR⟩ := ihcs fsA hchr hwchr hdchr hnodupR
      refine ⟨fs', ?_, ?_, ?_⟩
      · rw [List.map_cons, hel]
        rw [dl_loop_cons_dir_ok rfl (by
          show download_git _ _ _ (p ++ [n]) ((reference :: p) ++ [n]) _ _ 2 = _
          rw [List.cons_append]
          exact heqA)]
        rw [heqR]
        have hfun : ((fun d => (p ++ d, reference)) ∘ fun x : FPath => n :: x)
            = (fun d : FPath => (p ++ [n] ++ d, reference)) := by
          funext d
          simp [Function.comp]
        simp only [dirRelsList, List.map_append, List.map_map, hfun]
      · intro q
        rw [hfl, hreadR q, hreadA q, readFile_mkParent, lookup_append]
        rw [lookup_or_comm hdisj]
        rw [Option.or_assoc]
      · intro d hd
        apply hdirsR
        apply hdirsA
        exact dirs_subset_mkParent fs path d hd

theorem dl_tree_spec (tree : GitTree) (reference : String) (tmp_dir : FPath) :
    ∀ (fuel : Nat) (p : FPath) (cs : List (String × GitTree)) (fs : FS),
      findNode tree p = some (.dir cs) →
      (GitTree.dir cs).wfb = true →
      (GitTree.dir cs).depth ≤ fuel →
      2 ≤ p.length →
      ∃ fs',
        download_git (remoteOfTree tree reference) reference fuel p (reference :: p) tmp_dir fs 2
          = (fs', ((GitTree.dir cs).dirRels).map (fun d => (p ++ d, reference)), none)
        ∧ (∀ q, fs'.readFile q
            = (List.lookup q (fetchedFiles tmp_dir p ((GitTree.dir cs).leaves))).or (fs.readFile q))
        ∧ (∀ d ∈ fs.dirs, d ∈ fs'.dirs) := by
  intro fuel
  induction fuel with
  | zero =>
    intro p cs fs hfind hwf hdep hlen
    exfalso
    simp [GitTree.depth] at hdep
  | succ f ih =>
    intro p cs fs hfind hwf hdep hlen
    have hwf' := hwf
    simp only [GitTree.wfb, Bool.and_eq_true] at hwf'
    obtain ⟨hnk, hwl⟩ := hwf'
    have hdep' : depthList cs ≤ f := by
      simpa [GitTree.depth] using hdep
    have hch : ∀ nt ∈ cs, findNode tree (p ++ [nt.1]) = some nt.2 := by
      intro nt hnt
      exact findNode_child hfind (mem_lookup_child hnk (by simpa using hnt))
    have hwch : ∀ nt ∈ cs, GitTree.wfb nt.2 = true :=
      fun nt hnt => wfbList_mem hwl (by simpa using hnt)
    have hdch : ∀ nt ∈ cs, GitTree.depth nt.2 ≤ f :=
      fun nt hnt => le_trans (depthList_le (by simpa using hnt)) hdep'
    have hnodup : ((fetchedFiles tmp_dir p (leavesList cs)).map Prod.fst).Nodup := by
      have hlv : ((GitTree.dir cs).leaves.map Prod.fst).Nodup :=
        leaves_keys_nodup (f + 1) (GitTree.dir cs) hdep hwf
      simp only [GitTree.leaves] at hlv
      exact fetchedFiles_keys_nodup hlen hlv
    obtain ⟨fs', heq, hread, hdirs⟩ :=
      dl_loop_tree_spec tree reference tmp_dir f ih p hlen cs fs hch hwch hdch hnodup
    refine ⟨fs', ?_, ?_, hdirs⟩
    · simp only [download_git, apiOfTree_dir hfind, heq]
      simp [GitTree.dirRels]
    · intro q
      rw [hread q]
      simp [GitTree.leaves]

/-- C1: for every `(extensionName, reference)` pair that exists remotely
(a well-formed tree backing the remote, with the extension directory found
at the resolved repo path `src/<category>/<extensionName>`), `download_git`
succeeds and the fetched local tree contains exactly the remote leaf files,
each at `tmp_dir` plus its remote repo-relative path with the first
`lstrip = 2` leading components dropped; the recursive calls apply the
same fixed strip count at every depth (the source recursion relies on the
default `lstrip=2`). -/
theorem c1_fetch_exact (tree : GitTree) (reference cat ext : String) (tmp_dir : FPath)
    (fuel : Nat) (cs : List (String × GitTree))
    (hfind : findNode tree ["src", cat, ext] = some (.dir cs))
    (hwf : (GitTree.dir cs).wfb = true)
    (hfuel : (GitTree.dir cs).depth ≤ fuel) :
    ∃ fs',
      download_git (remoteOfTree tree reference) reference fuel ["src", cat, ext]
          (reference :: ["src", cat, ext]) tmp_dir emptyFS 2
        = (fs', ((GitTree.dir cs).dirRels).map (fun d => (["src", cat, ext] ++ d, reference)), none)
      ∧ ∀ q c, fs'.readFile q = some c ↔
          ∃ rp, (rp, c) ∈ leavesAbs (GitTree.dir cs) ["src", cat, ext]
            ∧ q = tmp_dir ++ rp.drop 2 := by
  have hlen : 2 ≤ (["src", cat, ext] : FPath).length := by simp
  obtain ⟨fs', heq, hread, _⟩ :=
    dl_tree_spec tree reference tmp_dir fuel ["src", cat, ext] cs emptyFS hfind hwf hfuel hlen
  have hkeys : ((fetchedFiles tmp_dir ["src", cat, ext] ((GitTree.dir cs).leaves)).map Prod.fst).Nodup :=
    fetchedFiles_keys_nodup hlen (leaves_keys_nodup fuel (GitTree.dir cs) hfuel hwf)
  refine ⟨fs', heq, ?_⟩
  intro q c
  have hq := hread q
  rw [show emptyFS.readFile q = none from rfl, Option.or_none] at hq
  rw [hq]
  constructor
  · intro hl
    have hm := lookup_mem hl
    simp only [fetchedFiles, List.mem_map] at hm
    obtain ⟨rc, hrc, hre⟩ := hm
    injection hre with h1 h2
    refine ⟨["src", cat, ext] ++ rc.1, ?_, ?_⟩
    · simp only [leavesAbs, List.mem_map]
      exact ⟨rc, hrc, by rw [h2]⟩
    · rw [← h1]
  · rintro ⟨rp, hrp, rfl⟩
    simp only [leavesAbs, List.mem_map] at hrp
    obtain ⟨rc, hrc, hre⟩ := hrp
    injection hre with h1 h2
    apply mem_lookup hkeys
    simp only [fetchedFiles, List.mem_map]
    exact ⟨rc, hrc, by rw [h2, h1]⟩

/-- C1 witness: the sample tree, reference and temporary directory satisfy
the hypotheses, and the fetch of `src/imagery/i.sentinel` succeeds with
the advertised request list. -/
theorem c1_fetch_exact_witness :
    (findNode tree0 ["src", "imagery", "i.sentinel"] = some (.dir cs0)
      ∧ (GitTree.dir cs0).wfb = true
      ∧ (GitTree.dir cs0).depth ≤ 4)
    ∧ ∃ fs',
      download_git (remoteOfTree tree0 ref0) ref0 4 ["src", "imagery", "i.sentinel"]
          (ref0 :: ["src", "imagery", "i.sentinel"]) tmp0 emptyFS 2
        = (fs', ((GitTree.dir cs0).dirRels).map
            (fun d => (["src", "imagery", "i.sentinel"] ++ d, ref0)), none)
      ∧ ∀ q c, fs'.readFile q = some c ↔
          ∃ rp, (rp, c) ∈ leavesAbs (GitTree.dir cs0) ["src", "imagery", "i.sentinel"]
            ∧ q = tmp0 ++ rp.drop 2 :=
  ⟨⟨rfl, rfl, by decide⟩,
   c1_fetch_exact tree0 ref0 "imagery" "i.sentinel" tmp0 4 cs0 rfl rfl (by decide)⟩

/-- C2: over a well-formed remote tree, an entry is treated as a file iff
its `download_url` is non-null (third conjunct: in every listing the
`download_url` is non-null exactly for file nodes); for every null
`download_url` entry the fetcher issues a listing request for that entry's
own path with the same reference and the same destination root (first
conjunct: the requests are exactly the directory nodes' own paths, paired
with the unchanged reference), and no file ends up at a directory entry's
own local path — only descendants produce files (second conjunct). -/
theorem c2_dir_entries (tree : GitTree) (reference cat ext : String) (tmp_dir : FPath)
    (fuel : Nat) (cs : List (String × GitTree))
    (hfind : findNode tree ["src", cat, ext] = some (.dir cs))
    (hwf : (GitTree.dir cs).wfb = true)
    (hfuel : (GitTree.dir cs).depth ≤ fuel) :
    ∃ fs',
      download_git (remoteOfTree tree reference) reference fuel ["src", cat, ext]
          (reference :: ["src", cat, ext]) tmp_dir emptyFS 2
        = (fs', ((GitTree.dir cs).dirRels).map (fun d => (["src", cat, ext] ++ d, reference)), none)
      ∧ (∀ d ∈ (GitTree.dir cs).dirRels,
          fs'.readFile (tmp_dir ++ (["src", cat, ext] ++ d).drop 2) = none)
      ∧ (∀ nt ∈ cs,
          ((entryOf reference ["src", cat, ext] nt).download_url).isSome
            ↔ ∃ c, nt.2 = GitTree.file c) := by
  have hlen : 2 ≤ (["src", cat, ext] : FPath).length := by simp
  obtain ⟨fs', heq, hread, _⟩ :=
    dl_tree_spec tree reference tmp_dir fuel ["src", cat, ext] cs emptyFS hfind hwf hfuel hlen
  refine ⟨fs', heq, ?_, ?_⟩
  · intro d hd
    have hq := hread (tmp_dir ++ (["src", cat, ext] ++ d).drop 2)
    rw [show emptyFS.readFile _ = none from rfl, Option.or_none] at hq
    rw [hq]
    apply lookup_eq_none_of_not_mem
    intro hmem
    simp only [fetchedFiles, List.map_map, List.mem_map, Function.comp] at hmem
    obtain ⟨rc, hrc, hre⟩ := hmem
    have h1 : (["src", cat, ext] ++ rc.1 : FPath).drop 2 = (["src", cat, ext] ++ d).drop 2 :=
      List.append_cancel_left hre
    rw [drop_two_append hlen, drop_two_append hlen] at h1
    have h2 : rc.1 = d := List.append_cancel_left h1
    apply dirRels_disjoint_leaves fuel (GitTree.dir cs) hfuel hwf d hd
    rw [← h2]
    exact List.mem_map_of_mem _ hrc
  · intro nt hnt
    obtain ⟨nn, tt⟩ := nt
    cases tt <;> simp [entryOf]

/-- C2 witness: the sample tree satisfies the hypotheses; listing requests
go exactly to the two directory paths (`i.sentinel` itself and its
`i.sentinel.download` subdirectory), no file is written at a directory
entry's own local path, and the sample listing's entries have non-null
`download_url` exactly for file nodes. -/
theorem c2_dir_entries_witness :
    (findNode tree0 ["src", "imagery", "i.sentinel"] = some (.dir cs0)
      ∧ (GitTree.dir cs0).wfb = true
      ∧ (GitTree.dir cs0).depth ≤ 4)
    ∧ ∃ fs',
      download_git (remoteOfTree tree0 ref0) ref0 4 ["src", "imagery", "i.sentinel"]
          (ref0 :: ["src", "imagery", "i.sentinel"]) tmp0 emptyFS 2
        = (fs', ((GitTree.dir cs0).dirRels).map
            (fun d => (["src", "imagery", "i.sentinel"] ++ d, ref0)), none)
      ∧ (∀ d ∈ (GitTree.dir cs0).dirRels,
          fs'.readFile (tmp0 ++ (["src", "imagery", "i.sentinel"] ++ d).drop 2) = none)
      ∧ (∀ nt ∈ cs0,
          ((entryOf ref0 ["src", "imagery", "i.sentinel"] nt).download_url).isSome
            ↔ ∃ c, nt.2 = GitTree.file c) :=
  ⟨⟨rfl, rfl, by decide⟩,
   c2_dir_entries tree0 ref0 "imagery" "i.sentinel" tmp0 4 cs0 rfl rfl (by decide)⟩

/-- C3: for a listing entry with non-null `download_url`, processing the
entry fetches the body from the derived raw-content URL (`git_url` plus
the basename of the `download_url`) and, when that fetch returns HTTP 200
with `content`, writes `content` verbatim at the computed local path —
shadowing any file already present there — before the loop moves on to the
remaining entries; the second conjunct reads the new content back
regardless of what was at that path in `fs`. -/
theorem c3_file_entry_written (remote : Remote) (reference : String) (fuel : Nat)
    (gitapi_path git_path tmp_dir : FPath) (lstrip : Nat) (el : ListingEntry)
    (rest : List ListingEntry) (fs : FS) (durl : FPath) (content : Bytes)
    (hdu : el.download_url = some durl)
    (hraw : remote.raw (git_path ++ [basename durl]) = some content) :
    dl_loop remote reference fuel gitapi_path git_path tmp_dir lstrip (el :: rest) fs
      = dl_loop remote reference fuel gitapi_path git_path tmp_dir lstrip rest
          ((mkParent fs (tmp_dir ++ el.path.drop lstrip)).writeFile
            (tmp_dir ++ el.path.drop lstrip) content)
    ∧ ((mkParent fs (tmp_dir ++ el.path.drop lstrip)).writeFile
        (tmp_dir ++ el.path.drop lstrip) content).readFile (tmp_dir ++ el.path.drop lstrip)
      = some content := by
  refine ⟨dl_loop_cons_file hdu hraw, ?_⟩
  rw [readFile_writeFile]
  simp

/-- C3 witness: on the sample remote, the `Makefile` entry's raw URL
serves `[77]` and processing the entry writes it at
`tmp0/i.sentinel/Makefile`, shadowing a stale file previously present at
that very path. -/
theorem c3_file_entry_written_witness :
    (⟨"Makefile", ["src", "imagery", "i.sentinel", "Makefile"],
        some (ref0 :: ["src", "imagery", "i.sentinel", "Makefile"])⟩ : ListingEntry).download_url
      = some (ref0 :: ["src", "imagery", "i.sentinel", "Makefile"])
    ∧ (remoteOfTree tree0 ref0).raw
        ((ref0 :: ["src", "imagery", "i.sentinel"])
          ++ [basename (ref0 :: ["src", "imagery", "i.sentinel", "Makefile"])]) = some [77]
    ∧ ((mkParent ⟨[(["tmp", "gxt_addon", "i.sentinel", "Makefile"], [9, 9])], []⟩
          (["tmp", "gxt_addon"]
            ++ (["src", "imagery", "i.sentinel", "Makefile"] : FPath).drop 2)).writeFile
        (["tmp", "gxt_addon"] ++ (["src", "imagery", "i.sentinel", "Makefile"] : FPath).drop 2)
        [77]).readFile
        (["tmp", "gxt_addon"] ++ (["src", "imagery", "i.sentinel", "Makefile"] : FPath).drop 2)
      = some [77] :=
  ⟨rfl, rfl,
   (c3_file_entry_written (remoteOfTree tree0 ref0) ref0 3 ["src", "imagery", "i.sentinel"]
      (ref0 :: ["src", "imagery", "i.sentinel"]) ["tmp", "gxt_addon"] 2
      ⟨"Makefile", ["src", "imagery", "i.sentinel", "Makefile"],
        some (ref0 :: ["src", "imagery", "i.sentinel", "Makefile"])⟩ []
      ⟨[(["tmp", "gxt_addon", "i.sentinel", "Makefile"], [9, 9])], []⟩
      (ref0 :: ["src", "imagery", "i.sentinel", "Makefile"]) [77] rfl rfl).2⟩

/-- C5 counterexample: on `remoteRawFail` the single listing entry is a
file whose raw-content request fails (non-200), yet `download_git`
finishes with no error (`none` instead of a propagated failure) and the
entry is silently skipped (no file written) — refuting "a failed
raw-content download of an individual file aborts the entire fetch by
propagating an error". -/
theorem c5_counterexample :
    remoteRawFail.raw ["r", "src", "x", "e", "f"] = none
    ∧ (download_git remoteRawFail "r" 2 ["src", "x", "e"] ["r", "src", "x", "e"]
        ["tmp"] emptyFS 2).2.2 = none
    ∧ (download_git remoteRawFail "r" 2 ["src", "x", "e"] ["r", "src", "x", "e"]
        ["tmp"] emptyFS 2).1.files = [] := by
  refine ⟨rfl, ?_, ?_⟩ <;>
    simp [download_git, dl_loop, remoteRawFail, urlretrieve_with_auth, mkParent,
      basename, FS.writeFile, FS.makedirs, FS.pathExists, emptyFS, ancestors]

/-- C5 amended: a listing-request error does abort the fetch — at the top
level the error is returned unchanged with the filesystem untouched
(first conjunct), and an error arising inside the recursion propagates
out of the loop unchanged (second conjunct) — but a raw-content download
answered with a non-200 status is silently skipped: no file is written
for that entry, no error is recorded, and the loop simply continues with
the remaining entries (third and fourth conjuncts). -/
theorem c5_amended (remote : Remote) (reference : String) (fuel : Nat)
    (gitapi_path git_path tmp_dir : FPath) (lstrip : Nat) (el : ListingEntry)
    (rest : List ListingEntry) (fs fsA : FS) (reqsA : List (FPath × String))
    (e : DlErr) (durl : FPath) :
    (remote.api gitapi_path reference = .error e →
      download_git remote reference (fuel + 1) gitapi_path git_path tmp_dir fs lstrip
        = (fs, [(gitapi_path, reference)], some e))
    ∧ (el.download_url = none →
      download_git remote reference fuel (gitapi_path ++ [el.name]) (git_path ++ [el.name])
          tmp_dir (mkParent fs (tmp_dir ++ el.path.drop lstrip)) 2 = (fsA, reqsA, some e) →
      dl_loop remote reference fuel gitapi_path git_path tmp_dir lstrip (el :: rest) fs
        = (fsA, reqsA, some e))
    ∧ (el.download_url = some durl →
      remote.raw (git_path ++ [basename durl]) = none →
      dl_loop remote reference fuel gitapi_path git_path tmp_dir lstrip (el :: rest) fs
        = dl_loop remote reference fuel gitapi_path git_path tmp_dir lstrip rest
            (mkParent fs (tmp_dir ++ el.path.drop lstrip)))
    ∧ (mkParent fs (tmp_dir ++ el.path.drop lstrip)).files = fs.files := by
  refine ⟨?_, ?_, ?_, files_mkParent fs _⟩
  · intro hapi
    simp [download_git, hapi]
  · intro hdu hrec
    exact dl_loop_cons_dir_err hdu hrec
  · intro hdu hraw
    exact dl_loop_cons_file_fail hdu hraw

/-- C5 amended witness: on the always-failing remote the top-level
listing error propagates unchanged with nothing written, and on
`remoteRawFail` the skipped raw download leaves the loop running on the
remaining (empty) entry list with no file written. -/
theorem c5_amended_witness :
    (download_git remoteDown "r" 1 ["src", "x", "e"] ["r", "src", "x", "e"] ["tmp"] emptyFS 2
      = (emptyFS, [(["src", "x", "e"], "r")], some (.http 404)))
    ∧ (dl_loop remoteRawFail "r" 1 ["src", "x", "e"] ["r", "src", "x", "e"] ["tmp"] 2
        [⟨"f", ["src", "x", "e", "f"], some ["r", "src", "x", "e", "f"]⟩] emptyFS
      = dl_loop remoteRawFail "r" 1 ["src", "x", "e"] ["r", "src", "x", "e"] ["tmp"] 2 []
          (mkParent emptyFS (["tmp"] ++ (["src", "x", "e", "f"] : FPath).drop 2))) :=
  ⟨(c5_amended remoteDown "r" 0 ["src", "x", "e"] ["r", "src", "x", "e"] ["tmp"] 2
      ⟨"f", [], none⟩ [] emptyFS emptyFS [] (.http 404) []).1 rfl,
   (c5_amended remoteRawFail "r" 1 ["src", "x", "e"] ["r", "src", "x", "e"] ["tmp"] 2
      ⟨"f", ["src", "x", "e", "f"], some ["r", "src", "x", "e", "f"]⟩ [] emptyFS emptyFS []
      (.http 404) ["r", "src", "x", "e", "f"]).2.2.1 rfl rfl⟩

/-- C4: when the top-level contents-listing request fails (non-2xx HTTP
response or malformed JSON, in particular a missing path or reference),
`download_git` raises and the error reaches `main` unchanged (it appears
verbatim in the fatal text), zero files have been written by the failed
top-level fetch, the fatal user-facing message names the searched repo
path and the reference, and the installer is never invoked (no calls). -/
theorem c4_listing_error_fatal (remote : Remote) (fuel : Nat) (extension reference : String)
    (flags : Flags) (tmp_candidate : FPath) (fs : FS) (e : DlErr)
    (href : reference ≠ "main")
    (hapi : remote.api ["src", get_module_class extension, extension] reference = .error e) :
    (Script.main remote (fuel + 1) ⟨extension, "add", reference⟩ flags tmp_candidate fs).calls = []
    ∧ (Script.main remote (fuel + 1) ⟨extension, "add", reference⟩ flags tmp_candidate fs).fs.files
      = fs.files
    ∧ (Script.main remote (fuel + 1) ⟨extension, "add", reference⟩ flags tmp_candidate fs).fatal
      = some (fatalText ("src/" ++ get_module_class extension ++ "/" ++ extension) reference e)
    ∧ containsStr (fatalText ("src/" ++ get_module_class extension ++ "/" ++ extension) reference e)
        ("src/" ++ get_module_class extension ++ "/" ++ extension)
    ∧ containsStr (fatalText ("src/" ++ get_module_class extension ++ "/" ++ extension) reference e)
        reference := by
  have hdl : download_git remote reference (fuel + 1)
      ["src", get_module_class extension, extension]
      (reference :: ["src", get_module_class extension, extension]) tmp_candidate
      (fs.makedirs tmp_candidate) 2
    = (fs.makedirs tmp_candidate,
       [(["src", get_module_class extension, extension], reference)], some e) := by
    simp [download_git, hapi]
  refine ⟨?_, ?_, ?_, ?_, ?_⟩
  · simp [Script.main, href, hdl]
  · have h2 : (Script.main remote (fuel + 1) ⟨extension, "add", reference⟩ flags
        tmp_candidate fs).fs = fs.makedirs tmp_candidate := by
      simp [Script.main, href, hdl]
    rw [h2]
    simp [FS.makedirs]
  · simp [Script.main, href, hdl]
  · exact ⟨("Could not find extension in repository.\nSearching in repo path ").data,
      ("\nfor reference " ++ reference ++ ".\n" ++ errText e).data, by simp [fatalText]⟩
  · exact ⟨("Could not find extension in repository.\nSearching in repo path "
        ++ ("src/" ++ get_module_class extension ++ "/" ++ extension)
        ++ "\nfor reference ").data,
      (".\n" ++ errText e).data, by simp [fatalText]⟩

/-- C4 witness: on the always-404 remote with a non-default reference, the
run makes no installer call, writes no file, and produces the fatal
message naming `src/imagery/i.sentinel` and the reference. -/
theorem c4_listing_error_fatal_witness :
    (Script.main remoteDown 1 ⟨"i.sentinel", "add", "r"⟩ ⟨false, false⟩ ["tmp"] emptyFS).calls = []
    ∧ (Script.main remoteDown 1 ⟨"i.sentinel", "add", "r"⟩ ⟨false, false⟩ ["tmp"] emptyFS).fs.files
      = emptyFS.files
    ∧ (Script.main remoteDown 1 ⟨"i.sentinel", "add", "r"⟩ ⟨false, false⟩ ["tmp"] emptyFS).fatal
      = some (fatalText ("src/" ++ get_module_class "i.sentinel" ++ "/" ++ "i.sentinel") "r"
          (.http 404)) := by
  have h := c4_listing_error_fatal remoteDown 0 "i.sentinel" "r" ⟨false, false⟩ ["tmp"] emptyFS
    (.http 404) (by decide) rfl
  exact ⟨h.1, h.2.1, h.2.2.1⟩

/-- C6: the fetcher is invoked iff the operation is "add" and the
reference differs from the default branch "main" (first conjunct, on the
recorded fetch request); for "remove" the installer is invoked directly
with the extension name and the flags string (which carries "f" exactly
when the force flag is set) and the fetcher is never called (second
conjunct); for "add" with reference "main" the fetcher is bypassed and
the installer is invoked with no local source path (third conjunct). -/
theorem c6_dispatch (remote : Remote) (fuel : Nat) (options : Options) (flags : Flags)
    (tmp_candidate : FPath) (fs : FS) :
    ((Script.main remote fuel options flags tmp_candidate fs).fetch_request.isSome
      ↔ (options.operation = "add" ∧ options.reference ≠ "main"))
    ∧ (options.operation = "remove" →
        (Script.main remote fuel options flags tmp_candidate fs).fetch_request = none
        ∧ (Script.main remote fuel options flags tmp_candidate fs).calls
          = [⟨options.extension, none, "remove",
              (if flags.f then "f" else "") ++ (if flags.s then "s" else "")⟩])
    ∧ (options.operation = "add" → options.reference = "main" →
        (Script.main remote fuel options flags tmp_candidate fs).fetch_request = none
        ∧ (Script.main remote fuel options flags tmp_candidate fs).calls
          = [⟨options.extension, none, "add",
              (if flags.f then "f" else "") ++ (if flags.s then "s" else "")⟩]) := by
  obtain ⟨extension, operation, reference⟩ := options
  by_cases hop : operation = "remove"
  · subst hop
    simp [Script.main]
  · by_cases hadd : operation = "add"
    · subst hadd
      by_cases href : reference = "main"
      · subst href
        simp [Script.main, hop]
      · refine ⟨?_, ?_, ?_⟩
        · cases hdl : (download_git remote reference fuel
              ["src", get_module_class extension, extension]
              (reference :: ["src", get_module_class extension, extension]) tmp_candidate
              (fs.makedirs tmp_candidate) 2).2.2 with
          | none => simp [Script.main, hop, href, hdl]
          | some e => simp [Script.main, hop, href, hdl]
        · intro h
          exact absurd h hop
        · intro _ h
          exact absurd h href
    · simp [Script.main, hop, hadd]

/-- C6 witness: for `operation="remove"` with the force flag the fetcher
is not invoked and the installer is called directly with flags "f"; for
`operation="add", reference="main"` the fetcher is bypassed and the
installer gets no local source path. -/
theorem c6_dispatch_witness :
    (Script.main remoteDown 1 ⟨"i.sentinel", "remove", "main"⟩ ⟨true, false⟩ ["tmp"]
        emptyFS).fetch_request = none
    ∧ (Script.main remoteDown 1 ⟨"i.sentinel", "remove", "main"⟩ ⟨true, false⟩ ["tmp"]
        emptyFS).calls = [⟨"i.sentinel", none, "remove", "f"⟩]
    ∧ (Script.main remoteDown 1 ⟨"i.sentinel", "add", "main"⟩ ⟨false, false⟩ ["tmp"]
        emptyFS).fetch_request = none
    ∧ (Script.main remoteDown 1 ⟨"i.sentinel", "add", "main"⟩ ⟨false, false⟩ ["tmp"]
        emptyFS).calls = [⟨"i.sentinel", none, "add", ""⟩] :=
  ⟨((c6_dispatch remoteDown 1 ⟨"i.sentinel", "remove", "main"⟩ ⟨true, false⟩ ["tmp"]
      emptyFS).2.1 rfl).1,
   ((c6_dispatch remoteDown 1 ⟨"i.sentinel", "remove", "main"⟩ ⟨true, false⟩ ["tmp"]
      emptyFS).2.1 rfl).2,
   ((c6_dispatch remoteDown 1 ⟨"i.sentinel", "add", "main"⟩ ⟨false, false⟩ ["tmp"]
      emptyFS).2.2 rfl rfl).1,
   ((c6_dispatch remoteDown 1 ⟨"i.sentinel", "add", "main"⟩ ⟨false, false⟩ ["tmp"]
      emptyFS).2.2 rfl rfl).2⟩

/-- C7: for `operation="add"`, extension `i.sentinel` and a non-default
reference, when the fetch succeeds the fetcher is invoked on the repo
path `src/imagery/i.sentinel` (with the category "imagery" resolved from
the leading letter "i" by the static lookup table — first conjunct), and
the installer is then invoked with the local path of the fetched
`i.sentinel` subdirectory inside the temporary directory. -/
theorem c7_commit_reference (remote : Remote) (fuel : Nat) (reference : String) (flags : Flags)
    (tmp_candidate : FPath) (fs : FS)
    (href : reference ≠ "main")
    (hok : (download_git remote reference fuel ["src", "imagery", "i.sentinel"]
        (reference :: ["src", "imagery", "i.sentinel"]) tmp_candidate
        (fs.makedirs tmp_candidate) 2).2.2 = none) :
    get_module_class "i.sentinel" = "imagery"
    ∧ (Script.main remote fuel ⟨"i.sentinel", "add", reference⟩ flags tmp_candidate
        fs).fetch_request = some (["src", "imagery", "i.sentinel"], reference)
    ∧ (Script.main remote fuel ⟨"i.sentinel", "add", reference⟩ flags tmp_candidate fs).calls
      = [⟨"i.sentinel", some (tmp_candidate ++ ["i.sentinel"]), "add",
          (if flags.f then "f" else "") ++ (if flags.s then "s" else "")⟩] := by
  have hgmc : get_module_class "i.sentinel" = "imagery" := by decide
  refine ⟨hgmc, ?_, ?_⟩ <;> simp [Script.main, href, hgmc, hok]

/-- C7 witness: on the sample remote at the 40-character commit hash
`ref0` the fetch of `src/imagery/i.sentinel` succeeds and the installer
is invoked with the fetched `i.sentinel` directory under `tmp0`. -/
theorem c7_commit_reference_witness :
    get_module_class "i.sentinel" = "imagery"
    ∧ (Script.main remote0 4 ⟨"i.sentinel", "add", ref0⟩ ⟨false, true⟩ tmp0
        emptyFS).fetch_request = some (["src", "imagery", "i.sentinel"], ref0)
    ∧ (Script.main remote0 4 ⟨"i.sentinel", "add", ref0⟩ ⟨false, true⟩ tmp0 emptyFS).calls
      = [⟨"i.sentinel", some (tmp0 ++ ["i.sentinel"]), "add", "s"⟩] :=
  c7_commit_reference remote0 4 ref0 ⟨false, true⟩ tmp0 emptyFS (by decide)
    (by
      rw [show remote0 = remoteOfTree tree0 ref0 from rfl]
      obtain ⟨fs', heq, -, -⟩ := dl_tree_spec tree0 ref0 tmp0 4 ["src", "imagery", "i.sentinel"]
        cs0 (emptyFS.makedirs tmp0) rfl rfl (by decide) (by simp)
      rw [heq])

/-- C8: whenever a fetch tempdir is created (operation "add" with a
non-default reference), it is registered in `rm_folders`, and after the
`atexit` cleanup — which runs on every exit path, whether the fetch
succeeded or any step failed — no directory and no file with the
temporary directory as a path prefix survives; on the branches that never
create a tempdir nothing is registered. -/
theorem c8_tempdir_removed (remote : Remote) (fuel : Nat) (options : Options) (flags : Flags)
    (tmp_candidate : FPath) (fs : FS) :
    ((options.operation = "add" ∧ options.reference ≠ "main") →
      (Script.main remote fuel options flags tmp_candidate fs).rm_folders = [tmp_candidate]
      ∧ (∀ q ∈ (run_process remote fuel options flags tmp_candidate fs).dirs,
          beginsWith tmp_candidate q = false)
      ∧ (∀ ec ∈ (run_process remote fuel options flags tmp_candidate fs).files,
          beginsWith tmp_candidate ec.1 = false))
    ∧ (¬(options.operation = "add" ∧ options.reference ≠ "main") →
      (Script.main remote fuel options flags tmp_candidate fs).rm_folders = []) := by
  obtain ⟨extension, operation, reference⟩ := options
  constructor
  · rintro ⟨hop, href⟩
    simp only at hop href
    subst hop
    have hop' : ¬("add" = "remove") := by decide
    -- the temp dir is created before the fetch and survives it
    have htmp : tmp_candidate ∈ (download_git remote reference fuel
        ["src", get_module_class extension, extension]
        (reference :: ["src", get_module_class extension, extension]) tmp_candidate
        (fs.makedirs tmp_candidate) 2).1.dirs := by
      apply download_git_dirs_mono
      simp [FS.makedirs]
      exact Or.inl (mem_ancestors_self tmp_candidate)
    have hmain : (Script.main remote fuel ⟨extension, "add", reference⟩ flags tmp_candidate
          fs).rm_folders = [tmp_candidate]
        ∧ (Script.main remote fuel ⟨extension, "add", reference⟩ flags tmp_candidate fs).fs
          = (download_git remote reference fuel
              ["src", get_module_class extension, extension]
              (reference :: ["src", get_module_class extension, extension]) tmp_candidate
              (fs.makedirs tmp_candidate) 2).1 := by
      cases hdl : (download_git remote reference fuel
          ["src", get_module_class extension, extension]
          (reference :: ["src", get_module_class extension, extension]) tmp_candidate
          (fs.makedirs tmp_candidate) 2).2.2 with
      | none => constructor <;> simp [Script.main, href, hdl]
      | some e => constructor <;> simp [Script.main, href, hdl]
    refine ⟨hmain.1, ?_, ?_⟩
    · intro q hq
      rw [show run_process remote fuel ⟨extension, "add", reference⟩ flags tmp_candidate fs
          = cleanup (Script.main remote fuel ⟨extension, "add", reference⟩ flags tmp_candidate
              fs).rm_folders
            (Script.main remote fuel ⟨extension, "add", reference⟩ flags tmp_candidate fs).fs
          from rfl, hmain.1, hmain.2] at hq
      have hisdir : ((download_git remote reference fuel
          ["src", get_module_class extension, extension]
          (reference :: ["src", get_module_class extension, extension]) tmp_candidate
          (fs.makedirs tmp_candidate) 2).1).isdir tmp_candidate = true := by
        simpa [FS.isdir] using htmp
      simp only [cleanup, List.foldl, hisdir, if_true] at hq
      simp only [FS.rmtree, List.mem_filter] at hq
      simpa using hq.2
    · intro ec hec
      rw [show run_process remote fuel ⟨extension, "add", reference⟩ flags tmp_candidate fs
          = cleanup (Script.main remote fuel ⟨extension, "add", reference⟩ flags tmp_candidate
              fs).rm_folders
            (Script.main remote fuel ⟨extension, "add", reference⟩ flags tmp_candidate fs).fs
          from rfl, hmain.1, hmain.2] at hec
      have hisdir : ((download_git remote reference fuel
          ["src", get_module_class extension, extension]
          (reference :: ["src", get_module_class extension, extension]) tmp_candidate
          (fs.makedirs tmp_candidate) 2).1).isdir tmp_candidate = true := by
        simpa [FS.isdir] using htmp
      simp only [cleanup, List.foldl, hisdir, if_true] at hec
      simp only [FS.rmtree, List.mem_filter] at hec
      simpa using hec.2
  · intro hneg
    simp only [not_and, not_not] at hneg
    by_cases hop : operation = "remove"
    · subst hop
      simp [Script.main]
    · by_cases hadd : operation = "add"
      · subst hadd
        have href : reference = "main" := hneg rfl
        subst href
        simp [Script.main, hop]
      · simp [Script.main, hop, hadd]

/-- C8 witness: with a failing remote (fetch aborts) the tempdir is still
registered and gone after cleanup, and a "remove" run registers no
tempdir. -/
theorem c8_tempdir_removed_witness :
    ((Script.main remoteDown 1 ⟨"i.sentinel", "add", "r"⟩ ⟨false, false⟩ ["tmp"]
        emptyFS).rm_folders = [["tmp"]]
      ∧ (∀ q ∈ (run_process remoteDown 1 ⟨"i.sentinel", "add", "r"⟩ ⟨false, false⟩ ["tmp"]
          emptyFS).dirs, beginsWith ["tmp"] q = false)
      ∧ (∀ ec ∈ (run_process remoteDown 1 ⟨"i.sentinel", "add", "r"⟩ ⟨false, false⟩ ["tmp"]
          emptyFS).files, beginsWith ["tmp"] ec.1 = false))
    ∧ (Script.main remoteDown 1 ⟨"i.sentinel", "remove", "x"⟩ ⟨false, false⟩ ["tmp"]
        emptyFS).rm_folders = [] :=
  ⟨(c8_tempdir_removed remoteDown 1 ⟨"i.sentinel", "add", "r"⟩ ⟨false, false⟩ ["tmp"]
      emptyFS).1 ⟨rfl, by decide⟩,
   (c8_tempdir_removed remoteDown 1 ⟨"i.sentinel", "remove", "x"⟩ ⟨false, false⟩ ["tmp"]
      emptyFS).2 (by decide)⟩

/-- C9 counterexample: with both credential variables absent, neither
`urlopen_with_auth` nor the `urlretrieve_with_auth` session setup logs
anything — refuting the claim's "the missing-credentials condition is
logged" (their message lists are empty, not non-empty). -/
theorem c9_counterexample :
    ¬ (((urlopen_with_auth ⟨none, none⟩ API_URL).2 ≠ [])
       ∨ ((urlretrieve_with_auth_session ⟨none, none⟩).2 ≠ [])) := by
  simp [urlopen_with_auth, urlretrieve_with_auth_session]

/-- C9 amended: both the listing request and the raw-content session
attach HTTP Basic credentials iff both environment variables are present;
with one or both absent the request is still made (same URL, no
authorization) — the fallback is non-fatal — but nothing is logged about
the missing credentials. -/
theorem c9_auth_iff_both_env (env : Env) (url : String) :
    ((urlopen_with_auth env url).1.authorization.isSome = true
      ↔ (env.GITHUB_USERNAME.isSome = true ∧ env.GITHUB_TOKEN.isSome = true))
    ∧ (urlopen_with_auth env url).1.url = url
    ∧ ((urlretrieve_with_auth_session env).1.isSome = true
      ↔ (env.GITHUB_USERNAME.isSome = true ∧ env.GITHUB_TOKEN.isSome = true))
    ∧ (urlopen_with_auth env url).2 = []
    ∧ (urlretrieve_with_auth_session env).2 = [] := by
  obtain ⟨u, t⟩ := env
  cases u <;> cases t <;> simp [urlopen_with_auth, urlretrieve_with_auth_session]

/-- C10: `get_module_class` is total by construction, and for every
module name whose segment before the first "." is not one of the 13 known
class-letter keys it returns that segment unchanged, so the repo path the
fetcher walks becomes `src/<segment>/<extensionName>`. -/
theorem c10_unknown_class_letters (module_name : String)
    (h : segmentBeforeDot module_name ∉
      (["d", "db", "g", "i", "m", "ps", "p", "r", "r3", "s", "t", "v", "wx"] : List String)) :
    get_module_class module_name = segmentBeforeDot module_name
    ∧ ∀ (remote : Remote) (fuel : Nat) (reference : String) (flags : Flags)
        (tmp_candidate : FPath) (fs : FS), reference ≠ "main" →
        (Script.main remote fuel ⟨module_name, "add", reference⟩ flags tmp_candidate
          fs).fetch_request
          = some (["src", segmentBeforeDot module_name, module_name], reference) := by
  simp only [List.mem_cons, List.not_mem_nil, or_false, not_or] at h
  obtain ⟨h1, h2, h3, h4, h5, h6, h7, h8, h9, h10, h11, h12, h13⟩ := h
  have hgmc : get_module_class module_name = segmentBeforeDot module_name := by
    simp [get_module_class, List.lookup,
      beq_eq_false_iff_ne.mpr h1, beq_eq_false_iff_ne.mpr h2, beq_eq_false_iff_ne.mpr h3,
      beq_eq_false_iff_ne.mpr h4, beq_eq_false_iff_ne.mpr h5, beq_eq_false_iff_ne.mpr h6,
      beq_eq_false_iff_ne.mpr h7, beq_eq_false_iff_ne.mpr h8, beq_eq_false_iff_ne.mpr h9,
      beq_eq_false_iff_ne.mpr h10, beq_eq_false_iff_ne.mpr h11, beq_eq_false_iff_ne.mpr h12,
      beq_eq_false_iff_ne.mpr h13]
  refine ⟨hgmc, ?_⟩
  intro remote fuel reference flags tmp_candidate fs href
  cases hdl : (download_git remote reference fuel
      ["src", segmentBeforeDot module_name, module_name]
      (reference :: ["src", segmentBeforeDot module_name, module_name]) tmp_candidate
      (fs.makedirs tmp_candidate) 2).2.2 with
  | none => simp [Script.main, href, hgmc, hdl]
  | some e => simp [Script.main, href, hgmc, hdl]

/-- C10 witness: "hb" is not a known class key, so `get_module_class`
returns it unchanged and the fetch request walks `src/hb/hb.foo`. -/
theorem c10_unknown_class_letters_witness :
    segmentBeforeDot "hb.foo" ∉
      (["d", "db", "g", "i", "m", "ps", "p", "r", "r3", "s", "t", "v", "wx"] : List String)
    ∧ get_module_class "hb.foo" = segmentBeforeDot "hb.foo"
    ∧ (Script.main remoteDown 1 ⟨"hb.foo", "add", "r"⟩ ⟨false, false⟩ ["tmp"]
        emptyFS).fetch_request = some (["src", segmentBeforeDot "hb.foo", "hb.foo"], "r") :=
  ⟨by decide, (c10_unknown_class_letters "hb.foo" (by decide)).1,
   (c10_unknown_class_letters "hb.foo" (by decide)).2 remoteDown 1 "r" ⟨false, false⟩ ["tmp"]
     emptyFS (by decide)⟩
